import Mathlib

/-
  Verification development for the Furucombo Metis arbitrage scanner
  (models.rs, price_feed.rs, main.rs).

  Modelling conventions:
  * rust_decimal::Decimal is modelled as ℚ (exact rational arithmetic; the
    operations used by the program — compare, subtract, divide, multiply by
    100 — are exact on the inputs of interest).
  * chrono::DateTime<Utc> timestamps and chrono Durations are modelled at
    second granularity as ℤ; `Utc::now()` becomes an explicit `now : ℤ`
    parameter threaded to every function that reads the clock.
  * std::collections::HashMap<String, CachedPrice> is modelled as an
    association list `List (String × CachedPrice)`; `insert` is modelled by
    prepending (later inserts shadow earlier ones under `List.lookup`,
    which finds the first matching key — the observable behaviour of
    HashMap::insert/get).
  * The network is modelled as a function `world : String → FetchOutcome`
    from a search term to the outcome of the HTTP GET for that term.
  * Decimal::from_str is modelled by `decimalFromStr`, a parser for plain
    decimal literals `[+|-]? digits [. digits]?` (underscore separators and
    the 28-digit precision cap of rust_decimal are not modelled; no claim
    depends on them).  f64 liquidity values are modelled as ℚ directly, the
    f64 → to_string → from_str round trip being the identity on them.
-/

set_option autoImplicit false

namespace Furucombo

/-- Token model (models.rs `Token`). -/
structure Token where
  symbol : String
  name : String
  decimals : Nat
  address : String
deriving DecidableEq, Repr

/-- Exchange model (models.rs `Exchange`). -/
structure Exchange where
  name : String
  chain : String
  router_address : String
deriving DecidableEq, Repr

/-- Trading pair model (models.rs `TradingPair`); `Decimal` fields are ℚ. -/
structure TradingPair where
  base_token : Token
  quote_token : Token
  exchange : Exchange
  price : ℚ
  liquidity : ℚ
  reserve_base : ℚ
  reserve_quote : ℚ
deriving DecidableEq, Repr

/-- models.rs `TradingPair::pair_id`: `"{base}/{quote}"`. -/
def TradingPair.pair_id (p : TradingPair) : String :=
  p.base_token.symbol ++ "/" ++ p.quote_token.symbol

/-- models.rs `TradingPair::full_id`: `"{exchange}:{base}/{quote}"`. -/
def TradingPair.full_id (p : TradingPair) : String :=
  p.exchange.name ++ ":" ++ p.base_token.symbol ++ "/" ++ p.quote_token.symbol

/-- Cached price entry (models.rs `CachedPrice`); timestamp in seconds. -/
structure CachedPrice where
  price : ℚ
  timestamp : ℤ
  source : String
deriving DecidableEq, Repr

/-- models.rs `CachedPrice::is_stale`: age (`now` minus the entry's
timestamp) strictly greater than `max_age_seconds`. -/
def CachedPrice.is_stale (c : CachedPrice) (max_age_seconds : ℤ) (now : ℤ) : Bool :=
  now - c.timestamp > max_age_seconds

/-- Value of a digit run, `none` when a non-digit occurs. -/
def digitsVal (cs : List Char) : Option Nat :=
  cs.foldlM (fun acc c => if c.isDigit then some (acc * 10 + (c.toNat - 48)) else none) 0

/-- Unsigned part of a decimal literal: `digits [. digits]?`, at least one
digit in total. -/
def decimalBody (cs : List Char) : Option ℚ :=
  match cs.splitOn '.' with
  | [ip] =>
    if ip.isEmpty then none
    else (digitsVal ip).map (fun v => (v : ℚ))
  | [ip, fp] =>
    if ip.isEmpty && fp.isEmpty then none
    else do
      let i ← digitsVal ip
      let f ← digitsVal fp
      pure ((i : ℚ) + (f : ℚ) / (10 : ℚ) ^ fp.length)
  | _ => none

/-- Model of rust_decimal `Decimal::from_str` on plain decimal literals
`[+|-]? digits [. digits]?` (underscore separators and the 28-digit
precision cap are not modelled; no claim depends on them). -/
def decimalFromStr (s : String) : Option ℚ :=
  match s.data with
  | [] => none
  | '-' :: rest => (decimalBody rest).map Neg.neg
  | '+' :: rest => decimalBody rest
  | cs => decimalBody cs

/-- DEX Screener nested token descriptor (price_feed.rs `TokenData`). -/
structure TokenData where
  address : String
  name : String
  symbol : String
deriving DecidableEq, Repr

/-- DEX Screener nested liquidity record (price_feed.rs `LiquidityData`);
the optional f64 fields are modelled as ℚ. -/
structure LiquidityData where
  usd : Option ℚ
  base : Option ℚ
  quote : Option ℚ
deriving DecidableEq, Repr

/-- DEX Screener pair record (price_feed.rs `DexScreenerPair`). -/
structure DexScreenerPair where
  chain_id : String
  dex_id : String
  pair_address : String
  base_token : TokenData
  quote_token : TokenData
  price_usd : Option String
  price_native : Option String
  liquidity : Option LiquidityData
deriving DecidableEq, Repr

/-- price_feed.rs `MetisPriceFeed::convert_to_trading_pair` (the source's
local bindings `price`, `liquidity_usd`, `reserve_base`, `reserve_quote`
are inlined; `price = Decimal::from_str(price_str).unwrap_or(ZERO)` is
`(decimalFromStr price_str).getD 0`, and the f64 liquidity fields go
through an identity to_string/from_str round trip). -/
def convert_to_trading_pair (data : DexScreenerPair) : Except String TradingPair :=
  match data.price_usd.orElse (fun _ => data.price_native) with
  | none => .error "No price data"
  | some price_str =>
    if (decimalFromStr price_str).getD 0 ≤ 0 then .error "Invalid price"
    else if (data.liquidity.bind (fun l => l.usd)).getD 0 < 1000 then
      .error "Liquidity too low"
    else
      .ok ⟨⟨data.base_token.symbol, data.base_token.name, 18, data.base_token.address⟩,
        ⟨data.quote_token.symbol, data.quote_token.name, 18, data.quote_token.address⟩,
        ⟨data.dex_id, "Metis", data.pair_address⟩,
        (decimalFromStr price_str).getD 0,
        (data.liquidity.bind (fun l => l.usd)).getD 0,
        (data.liquidity.bind (fun l => l.base)).getD 0,
        (data.liquidity.bind (fun l => l.quote)).getD 0⟩

/-- Outcome of the HTTP GET plus JSON decode for one search term
(transport error, non-success status, body parse error, or a decoded
record list — the `pairs` field already defaulted to `[]` when absent). -/
inductive FetchOutcome where
  | transportError (msg : String)
  | badStatus (code : Nat)
  | parseError (msg : String)
  | ok (records : List DexScreenerPair)
deriving DecidableEq, Repr

/-- True on every outcome other than a decoded record list. -/
def FetchOutcome.isFailure : FetchOutcome → Bool
  | .ok _ => false
  | _ => true

/-- Search terms used by fetch_metis_pairs. -/
def search_terms : List String := ["metis", "netswap", "tethys"]

/-- Dedup step of fetch_metis_pairs: append the converted pair unless one
with the same full_id is already accumulated. -/
def pushUnique (all_pairs : List TradingPair) (pair : TradingPair) : List TradingPair :=
  if all_pairs.any (fun p => p.full_id == pair.full_id) then all_pairs
  else all_pairs ++ [pair]

/-- Body of the inner record loop of fetch_metis_pairs: skip non-Metis
chains, skip exchanges outside the allow-list, convert, dedup. -/
def processRecord (all_pairs : List TradingPair) (pair_data : DexScreenerPair) : List TradingPair :=
  if pair_data.chain_id != "metis" then all_pairs
  else if pair_data.dex_id != "netswap" && pair_data.dex_id != "tethys" then all_pairs
  else
    match convert_to_trading_pair pair_data with
    | .ok pair => pushUnique all_pairs pair
    | .error _ => all_pairs

/-- Body of the outer term loop of fetch_metis_pairs: every non-`ok`
outcome is logged and skipped (`continue`). -/
def processTerm (world : String → FetchOutcome) (all_pairs : List TradingPair) (term : String) :
    List TradingPair :=
  match world term with
  | .ok records => records.foldl processRecord all_pairs
  | _ => all_pairs

/-- price_feed.rs `MetisPriceFeed::fetch_metis_pairs`; the function body
ends in `Ok(all_pairs)` and has no early `return`, so it is total and
always returns `.ok`. -/
def fetch_metis_pairs (world : String → FetchOutcome) : Except String (List TradingPair) :=
  .ok (search_terms.foldl (processTerm world) [])

/-- Mutable state of a `MetisPriceFeed`: the string-keyed price/liquidity
cache and the whole-pair-list snapshot cache. -/
structure FeedState where
  cache : List (String × CachedPrice)
  pairs_cache : List TradingPair
deriving DecidableEq, Repr

/-- price_feed.rs `MetisPriceFeed::get_price` (read-only; takes the clock
as `now`); the key is `"{base}/{quote}"`. -/
def get_price (s : FeedState) (now : ℤ) (base quote : String) : Option ℚ :=
  match s.cache.lookup (base ++ "/" ++ quote) with
  | some cached => if !(cached.is_stale 60 now) then some cached.price else none
  | none => none

/-- price_feed.rs `MetisPriceFeed::get_liquidity` (read-only, no staleness
check in the source); the key is `"{base}/{quote}-liq"`. -/
def get_liquidity (s : FeedState) (base quote : String) : Option ℚ :=
  (s.cache.lookup (base ++ "/" ++ quote ++ "-liq")).map (fun c => c.price)

/-- price_feed.rs `MetisPriceFeed::get_trading_pairs`: serve the snapshot
cache when non-empty, otherwise fetch (and cache on success, return empty
on error). -/
def get_trading_pairs (world : String → FetchOutcome) (s : FeedState) :
    List TradingPair × FeedState :=
  if !s.pairs_cache.isEmpty then (s.pairs_cache, s)
  else
    match fetch_metis_pairs world with
    | .ok pairs => (pairs, { s with pairs_cache := pairs })
    | .error _ => ([], s)

/-- HashMap::insert modelled by prepending; `List.lookup` returns the
first (most recently inserted) entry for a key. -/
def cacheInsert (m : List (String × CachedPrice)) (k : String) (v : CachedPrice) :
    List (String × CachedPrice) :=
  (k, v) :: m

/-- Source label written by refresh: `"DEX Screener - {exchange}"`. -/
def pairSrc (pair : TradingPair) : String :=
  "DEX Screener - " ++ pair.exchange.name

/-- Body of the per-pair cache update loop in refresh: insert the price
entry under `"{base}/{quote}"`, then the liquidity entry under
`"{base}/{quote}-liq"`, both timestamped `now`.  The key strings the
source builds with `format!` are exactly `pair_id()` and
`pair_id() ++ "-liq"`. -/
def cachePair (now : ℤ) (m : List (String × CachedPrice)) (pair : TradingPair) :
    List (String × CachedPrice) :=
  cacheInsert
    (cacheInsert m pair.pair_id ⟨pair.price, now, pairSrc pair⟩)
    (pair.pair_id ++ "-liq")
    ⟨pair.liquidity, now, pairSrc pair⟩

/-- State update performed by refresh once the fetch has returned `pairs`:
replace the snapshot cache and write every per-pair entry. -/
def refreshApply (pairs : List TradingPair) (now : ℤ) (s : FeedState) : FeedState :=
  { pairs_cache := pairs, cache := pairs.foldl (cachePair now) s.cache }

/-- refresh, factored over the result of the `fetch_metis_pairs().await?`
call: on `Err` the `?` operator returns before either lock is taken, so
the state is handed back untouched. -/
def refreshRun (fetched : Except String (List TradingPair)) (now : ℤ) (s : FeedState) :
    FeedState × Except String Unit :=
  match fetched with
  | .error e => (s, .error e)
  | .ok pairs => (refreshApply pairs now s, .ok ())

/-- price_feed.rs `MetisPriceFeed::refresh`. -/
def refresh (world : String → FetchOutcome) (now : ℤ) (s : FeedState) :
    FeedState × Except String Unit :=
  refreshRun (fetch_metis_pairs world) now s

/-- Opportunity signal emitted by find_price_differences (main.rs): pair
identity, spread percentage, buy side (minimum), sell side (maximum). -/
structure OpportunitySignal where
  pair_id : String
  spread : ℚ
  min_exchange : String
  min_price : ℚ
  max_exchange : String
  max_price : ℚ
deriving DecidableEq, Repr

/-- Rust `Iterator::min_by` on the price component: on ties the earlier
element is kept (the fold keeps `best` unless `best.1 > x.1`). -/
def minByPrice (h : ℚ × String) (t : List (ℚ × String)) : ℚ × String :=
  t.foldl (fun best x => if best.1 > x.1 then x else best) h

/-- Rust `Iterator::max_by` on the price component: on ties the later
element is taken. -/
def maxByPrice (h : ℚ × String) (t : List (ℚ × String)) : ℚ × String :=
  t.foldl (fun best x => if best.1 > x.1 then best else x) h

/-- Symbol-keyed group built by find_price_differences for one key: the
sub-sequence of the snapshot whose `pair_id()` equals the key, in
snapshot order (HashMap entry + push preserves insertion order per key). -/
def groupFor (pairs : List TradingPair) (key : String) : List TradingPair :=
  pairs.filter (fun p => p.pair_id == key)

/-- Per-group body of find_price_differences (main.rs): require at least 2
listings, take min/max price via the `min_by`/`max_by` folds, require
min > 0 and spread > 0.5 % (the source's local bindings `min_price`,
`max_price` and `spread` are inlined; the `unwrap`s on `min_by`/`max_by`
are safe in the source because the group is non-empty, and the `[]` match
arm here is correspondingly unreachable). -/
def signalForGroup (pair_id : String) (exchanges : List TradingPair) : Option OpportunitySignal :=
  if exchanges.length < 2 then none
  else
    match exchanges.map (fun p => (p.price, p.exchange.name)) with
    | [] => none
    | h :: t =>
      if (minByPrice h t).1 > 0 then
        if ((maxByPrice h t).1 - (minByPrice h t).1) / (minByPrice h t).1 * 100 > 1 / 2 then
          some ⟨pair_id, ((maxByPrice h t).1 - (minByPrice h t).1) / (minByPrice h t).1 * 100,
            (minByPrice h t).2, (minByPrice h t).1, (maxByPrice h t).2, (maxByPrice h t).1⟩
        else none
      else none

/-- main.rs `find_price_differences`, restricted to the group of one key
(the loop over the HashMap handles each key independently; a key with no
member yields the empty group and hence no signal). -/
def find_price_differences (pairs : List TradingPair) (key : String) : Option OpportunitySignal :=
  signalForGroup key (groupFor pairs key)

/-
  Sample data, taken from the MockPriceFeed fixture and the spec's
  divergence scenario (WETH/USDC at 1850 and 1852; METIS/USDC at 85 and 80).
-/

/-- WETH/USDC listed on netswap at 1850. -/
def sampleWethNetswap : TradingPair :=
  ⟨⟨"WETH", "Wrapped Ether", 18, "0xA"⟩, ⟨"USDC", "USD Coin", 18, "0xB"⟩,
    ⟨"netswap", "Metis", "0xR1"⟩, 1850, 500000, 0, 0⟩

/-- WETH/USDC listed on tethys at 1852. -/
def sampleWethTethys : TradingPair :=
  ⟨⟨"WETH", "Wrapped Ether", 18, "0xA"⟩, ⟨"USDC", "USD Coin", 18, "0xB"⟩,
    ⟨"tethys", "Metis", "0xR2"⟩, 1852, 350000, 0, 0⟩

/-- METIS/USDC listed on netswap at 85. -/
def sampleMetisNetswap : TradingPair :=
  ⟨⟨"METIS", "Metis Token", 18, "0xC"⟩, ⟨"USDC", "USD Coin", 18, "0xB"⟩,
    ⟨"netswap", "Metis", "0xR1"⟩, 85, 200000, 0, 0⟩

/-- METIS/USDC listed on tethys at 80. -/
def sampleMetisTethys : TradingPair :=
  ⟨⟨"METIS", "Metis Token", 18, "0xC"⟩, ⟨"USDC", "USD Coin", 18, "0xB"⟩,
    ⟨"tethys", "Metis", "0xR2"⟩, 80, 150000, 0, 0⟩

/-
  Specification-side view of the fetch loop: the stream of converted
  survivors in encounter order, against which the dedup check runs.
-/

/-- Converted survivors of one record: the record passes the chain/DEX
filter and converts successfully (at most one pair per record). -/
def candidatesOfRecord (r : DexScreenerPair) : List TradingPair :=
  if r.chain_id == "metis" && (r.dex_id == "netswap" || r.dex_id == "tethys") then
    match convert_to_trading_pair r with
    | .ok p => [p]
    | .error _ => []
  else []

/-- Converted survivors of one search term, empty on any fetch failure. -/
def candidatesOfTerm (world : String → FetchOutcome) (term : String) : List TradingPair :=
  match world term with
  | .ok records => records.flatMap candidatesOfRecord
  | _ => []

/-- Converted survivors of the whole fetch cycle in encounter order,
across all search terms, before deduplication. -/
def candidateStream (world : String → FetchOutcome) : List TradingPair :=
  search_terms.flatMap (candidatesOfTerm world)

/-- DEX Screener record for METIS/USDC on netswap at price 85. -/
def demoRecord85 : DexScreenerPair :=
  ⟨"metis", "netswap", "0xPAIR1", ⟨"0xC", "Metis Token", "METIS"⟩,
    ⟨"0xB", "USD Coin", "USDC"⟩, some "85", none, some ⟨some 200000, none, some 170000⟩⟩

/-- DEX Screener record with the same exchange/base/quote at price 80
(same `full_id()` as the record above after conversion). -/
def demoRecord80 : DexScreenerPair :=
  ⟨"metis", "netswap", "0xPAIR1", ⟨"0xC", "Metis Token", "METIS"⟩,
    ⟨"0xB", "USD Coin", "USDC"⟩, some "80", none, some ⟨some 150000, none, none⟩⟩

/-- Network in which the term "metis" answers with the two duplicate
records and every other term fails at the transport. -/
def demoWorld : String → FetchOutcome := fun t =>
  if t == "metis" then .ok [demoRecord85, demoRecord80] else .transportError "skip"

/-- Trading pair produced by converting `demoRecord85`. -/
def demoPair85 : TradingPair :=
  ⟨⟨"METIS", "Metis Token", 18, "0xC"⟩, ⟨"USDC", "USD Coin", 18, "0xB"⟩,
    ⟨"netswap", "Metis", "0xPAIR1"⟩, 85, 200000, 0, 170000⟩

/-- Network in which every term fails at the transport. -/
def demoDownWorld : String → FetchOutcome := fun _ => .transportError "dns unreachable"

/-- String append cancels on the right (via the underlying char lists). -/
lemma strAppendCancelRight (a b c : String) (h : a ++ c = b ++ c) : a = b := by
  have hd : a.data ++ c.data = b.data ++ c.data := by
    have h2 := congrArg String.data h
    simpa [String.data_append] using h2
  have h3 := List.append_cancel_right hd
  cases a; cases b; exact congrArg String.mk h3

/-- One record step of the fetch fold is the dedup fold over that
record's converted survivors. -/
lemma processRecord_eq (acc : List TradingPair) (r : DexScreenerPair) :
    processRecord acc r = (candidatesOfRecord r).foldl pushUnique acc := by
  unfold processRecord candidatesOfRecord
  cases hc : r.chain_id == "metis" <;>
    cases hn : r.dex_id == "netswap" <;>
      cases ht : r.dex_id == "tethys" <;>
        simp [bne, hc, hn, ht] <;>
          cases hcv : convert_to_trading_pair r <;> simp

/-- The inner record loop is the dedup fold over the record survivors. -/
lemma foldl_processRecord (recs : List DexScreenerPair) (acc : List TradingPair) :
    recs.foldl processRecord acc = (recs.flatMap candidatesOfRecord).foldl pushUnique acc := by
  induction recs generalizing acc with
  | nil => rfl
  | cons r rs ih =>
    rw [List.foldl_cons, processRecord_eq, ih, List.flatMap_cons, List.foldl_append]

/-- One term step of the fetch fold is the dedup fold over that term's
converted survivors. -/
lemma processTerm_eq (world : String → FetchOutcome) (acc : List TradingPair) (t : String) :
    processTerm world acc t = (candidatesOfTerm world t).foldl pushUnique acc := by
  unfold processTerm candidatesOfTerm
  cases world t <;> simp [foldl_processRecord]

/-- fetch_metis_pairs is the dedup fold over the whole candidate stream. -/
lemma fetch_eq (world : String → FetchOutcome) :
    fetch_metis_pairs world = .ok ((candidateStream world).foldl pushUnique []) := by
  have hts : ∀ (ts : List String) (acc : List TradingPair),
      ts.foldl (processTerm world) acc
        = (ts.flatMap (candidatesOfTerm world)).foldl pushUnique acc := by
    intro ts
    induction ts with
    | nil => intro acc; rfl
    | cons t ts ih =>
      intro acc
      rw [List.foldl_cons, processTerm_eq, ih, List.flatMap_cons, List.foldl_append]
  unfold fetch_metis_pairs candidateStream
  exact congrArg Except.ok (hts search_terms [])

/-- A list in which no element matches identity `k` filters to `[]`. -/
lemma filter_eq_nil_of_any_eq_false {k : String} {acc : List TradingPair}
    (h : acc.any (fun p => p.full_id == k) = false) :
    acc.filter (fun p => p.full_id == k) = [] := by
  rw [List.filter_eq_nil_iff]
  exact List.any_eq_false.mp h

/-- Once the accumulator holds identity `k`, the dedup fold never adds
another pair with that identity. -/
lemma foldl_pushUnique_filter_stable (l : List TradingPair) (acc : List TradingPair) (k : String)
    (h : acc.any (fun p => p.full_id == k) = true) :
    (l.foldl pushUnique acc).filter (fun p => p.full_id == k)
      = acc.filter (fun p => p.full_id == k) := by
  induction l generalizing acc with
  | nil => rfl
  | cons x xs ih =>
    rw [List.foldl_cons]
    cases hx : acc.any (fun p => p.full_id == x.full_id) with
    | true =>
      have hpu : pushUnique acc x = acc := by simp [pushUnique, hx]
      rw [hpu, ih acc h]
    | false =>
      have hxk : (x.full_id == k) = false := by
        cases h0 : (x.full_id == k) with
        | false => rfl
        | true =>
          rw [eq_of_beq h0] at hx
          exact Bool.noConfusion (h.symm.trans hx)
      have hpu : pushUnique acc x = acc ++ [x] := by simp [pushUnique, hx]
      have hap : (acc ++ [x]).any (fun p => p.full_id == k) = true := by
        simp [List.any_append, h]
      rw [hpu, ih (acc ++ [x]) hap, List.filter_append]
      simp [List.filter_cons, hxk]

/-- If the accumulator does not yet hold identity `k`, the dedup fold
keeps exactly the first streamed pair with that identity. -/
lemma foldl_pushUnique_filter_fresh (l : List TradingPair) (acc : List TradingPair) (k : String)
    (h : acc.any (fun p => p.full_id == k) = false) :
    (l.foldl pushUnique acc).filter (fun p => p.full_id == k)
      = (l.filter (fun p => p.full_id == k)).take 1 := by
  induction l generalizing acc with
  | nil => simp [filter_eq_nil_of_any_eq_false h]
  | cons x xs ih =>
    rw [List.foldl_cons]
    cases hxk : (x.full_id == k) with
    | false =>
      have hkeep : (pushUnique acc x).any (fun p => p.full_id == k) = false := by
        unfold pushUnique
        cases hx : acc.any (fun p => p.full_id == x.full_id) with
        | true => simpa [hx] using h
        | false => simp [hx, List.any_append, h, hxk]
      rw [ih _ hkeep]
      simp [List.filter_cons, hxk]
    | true =>
      have hxf : x.full_id = k := eq_of_beq hxk
      have hx : acc.any (fun p => p.full_id == x.full_id) = false := by rw [hxf]; exact h
      have hpu : pushUnique acc x = acc ++ [x] := by simp [pushUnique, hx]
      have hap : (acc ++ [x]).any (fun p => p.full_id == k) = true := by
        simp [List.any_append, hxk]
      rw [hpu, foldl_pushUnique_filter_stable xs (acc ++ [x]) k hap, List.filter_append,
        filter_eq_nil_of_any_eq_false h]
      simp [List.filter_cons, hxk]

/-- Every pair kept by the dedup fold comes from the accumulator or from
the streamed list. -/
lemma mem_foldl_pushUnique {p : TradingPair} (l acc : List TradingPair) :
    p ∈ l.foldl pushUnique acc → p ∈ acc ∨ p ∈ l := by
  induction l generalizing acc with
  | nil => exact fun h => Or.inl h
  | cons x xs ih =>
    intro h
    rw [List.foldl_cons] at h
    rcases ih (pushUnique acc x) h with h1 | h1
    · unfold pushUnique at h1
      by_cases hx : acc.any (fun q => q.full_id == x.full_id) = true
      · rw [if_pos hx] at h1
        exact Or.inl h1
      · rw [if_neg hx] at h1
        rcases List.mem_append.mp h1 with h2 | h2
        · exact Or.inl h2
        · simp only [List.mem_singleton] at h2
          subst h2
          exact Or.inr (List.mem_cons_self _ _)
    · exact Or.inr (List.mem_cons_of_mem x h1)

/-- A successful conversion yields a pair whose exchange name is the
record's dexId, whose chain label is "Metis", whose price is strictly
positive and whose USD liquidity is at least 1000. -/
lemma convert_ok_props (r : DexScreenerPair) (p : TradingPair)
    (h : convert_to_trading_pair r = .ok p) :
    p.exchange.name = r.dex_id ∧ p.exchange.chain = "Metis"
      ∧ 0 < p.price ∧ 1000 ≤ p.liquidity := by
  unfold convert_to_trading_pair at h
  split at h
  · exact absurd h (by simp)
  · split at h
    · exact absurd h (by simp)
    · next hple =>
      split at h
      · exact absurd h (by simp)
      · next hliq =>
        cases h
        exact ⟨rfl, rfl, lt_of_not_le hple, not_lt.mp hliq⟩

/-- The min_by fold computes the minimum of the price components. -/
lemma minByPrice_fst (h : ℚ × String) (t : List (ℚ × String)) :
    (minByPrice h t).1 = (t.map Prod.fst).foldl min h.1 := by
  induction t generalizing h with
  | nil => rfl
  | cons x xs ih =>
    have hstep : minByPrice h (x :: xs) = minByPrice (if h.1 > x.1 then x else h) xs := rfl
    rw [hstep, ih, List.map_cons, List.foldl_cons]
    congr 1
    rcases le_or_lt h.1 x.1 with hle | hlt
    · rw [if_neg (not_lt.mpr hle), min_eq_left hle]
    · rw [if_pos hlt, min_eq_right (le_of_lt hlt)]

/-- The max_by fold computes the maximum of the price components. -/
lemma maxByPrice_fst (h : ℚ × String) (t : List (ℚ × String)) :
    (maxByPrice h t).1 = (t.map Prod.fst).foldl max h.1 := by
  induction t generalizing h with
  | nil => rfl
  | cons x xs ih =>
    have hstep : maxByPrice h (x :: xs) = maxByPrice (if h.1 > x.1 then h else x) xs := rfl
    rw [hstep, ih, List.map_cons, List.foldl_cons]
    congr 1
    rcases le_or_lt h.1 x.1 with hle | hlt
    · rw [if_neg (not_lt.mpr hle), max_eq_right hle]
    · rw [if_pos hlt, max_eq_left (le_of_lt hlt)]

/-- The min_by fold returns an element of the price list. -/
lemma minByPrice_mem (h : ℚ × String) (t : List (ℚ × String)) :
    minByPrice h t ∈ h :: t := by
  induction t generalizing h with
  | nil => exact List.mem_cons_self _ _
  | cons x xs ih =>
    have hstep : minByPrice h (x :: xs) = minByPrice (if h.1 > x.1 then x else h) xs := rfl
    rw [hstep]
    rcases List.mem_cons.mp (ih (if h.1 > x.1 then x else h)) with h1 | h1
    · rw [h1]
      split
      · exact List.mem_cons_of_mem _ (List.mem_cons_self _ _)
      · exact List.mem_cons_self _ _
    · exact List.mem_cons_of_mem _ (List.mem_cons_of_mem _ h1)

/-- The max_by fold returns an element of the price list. -/
lemma maxByPrice_mem (h : ℚ × String) (t : List (ℚ × String)) :
    maxByPrice h t ∈ h :: t := by
  induction t generalizing h with
  | nil => exact List.mem_cons_self _ _
  | cons x xs ih =>
    have hstep : maxByPrice h (x :: xs) = maxByPrice (if h.1 > x.1 then h else x) xs := rfl
    rw [hstep]
    rcases List.mem_cons.mp (ih (if h.1 > x.1 then h else x)) with h1 | h1
    · rw [h1]
      split
      · exact List.mem_cons_self _ _
      · exact List.mem_cons_of_mem _ (List.mem_cons_self _ _)
    · exact List.mem_cons_of_mem _ (List.mem_cons_of_mem _ h1)

/-- Reduction of the per-group body once the mapped price list is a cons. -/
lemma signalForGroup_cons_eq (key : String) (g : List TradingPair)
    (hd : ℚ × String) (tl : List (ℚ × String))
    (hm : g.map (fun p => (p.price, p.exchange.name)) = hd :: tl)
    (hlen : ¬g.length < 2) :
    signalForGroup key g =
      if (minByPrice hd tl).1 > 0 then
        if ((maxByPrice hd tl).1 - (minByPrice hd tl).1) / (minByPrice hd tl).1 * 100 > 1 / 2 then
          some ⟨key, ((maxByPrice hd tl).1 - (minByPrice hd tl).1) / (minByPrice hd tl).1 * 100,
            (minByPrice hd tl).2, (minByPrice hd tl).1, (maxByPrice hd tl).2, (maxByPrice hd tl).1⟩
        else none
      else none := by
  unfold signalForGroup
  rw [if_neg hlen, hm]

/-- A group with at least two members maps to a non-empty price list. -/
lemma exists_cons_of_two_le (g : List TradingPair) (hlen : ¬g.length < 2) :
    ∃ hd tl, g.map (fun p => (p.price, p.exchange.name)) = hd :: tl := by
  cases hg : g.map (fun p => (p.price, p.exchange.name)) with
  | nil =>
    exfalso
    have hl : g = [] := by simpa using hg
    exact hlen (by simp [hl])
  | cons a b => exact ⟨a, b, rfl⟩

/-- The price list of a group is the first components of its price and
exchange-name pairs. -/
lemma group_prices_cons (g : List TradingPair) (hd : ℚ × String) (tl : List (ℚ × String))
    (hm : g.map (fun p => (p.price, p.exchange.name)) = hd :: tl) :
    g.map TradingPair.price = hd.1 :: tl.map Prod.fst := by
  have h2 := congrArg (List.map Prod.fst) hm
  rw [List.map_map] at h2
  simpa using h2

/-- The min_by fold value is the `List.min?` of the group's prices. -/
lemma group_min?_eq (g : List TradingPair) (hd : ℚ × String) (tl : List (ℚ × String))
    (hm : g.map (fun p => (p.price, p.exchange.name)) = hd :: tl) :
    (g.map TradingPair.price).min? = some ((minByPrice hd tl).1) := by
  rw [group_prices_cons g hd tl hm, minByPrice_fst]
  rfl

/-- The max_by fold value is the `List.max?` of the group's prices. -/
lemma group_max?_eq (g : List TradingPair) (hd : ℚ × String) (tl : List (ℚ × String))
    (hm : g.map (fun p => (p.price, p.exchange.name)) = hd :: tl) :
    (g.map TradingPair.price).max? = some ((maxByPrice hd tl).1) := by
  rw [group_prices_cons g hd tl hm, maxByPrice_fst]
  rfl

unseal Rat.mul Rat.sub Rat.add Rat.inv in
/-- C1: the divergence scanner emits a signal for a symbol group iff the
group has at least 2 members, its minimum price is positive and the
spread (max − min)/min·100 strictly exceeds 0.5; an emitted signal
carries the group key, the spread, and the minimum/maximum exchange and
price; a group of fewer than 2 members never signals; WETH/USDC at
1850/1852 yields no signal and METIS/USDC at 85/80 yields spread 6.25 %
with low 80 on tethys and high 85 on netswap. -/
theorem find_price_differences_spec :
    (∀ (pairs : List TradingPair) (key : String),
        (find_price_differences pairs key).isSome = true ↔
          2 ≤ (groupFor pairs key).length
            ∧ ∃ mn ∈ ((groupFor pairs key).map TradingPair.price).min?,
                ∃ mx ∈ ((groupFor pairs key).map TradingPair.price).max?,
                  0 < mn ∧ (mx - mn) / mn * 100 > 1 / 2)
    ∧ (∀ (pairs : List TradingPair) (key : String) (sig : OpportunitySignal),
        find_price_differences pairs key = some sig →
          sig.pair_id = key
            ∧ ((groupFor pairs key).map TradingPair.price).min? = some sig.min_price
            ∧ ((groupFor pairs key).map TradingPair.price).max? = some sig.max_price
            ∧ sig.spread = (sig.max_price - sig.min_price) / sig.min_price * 100
            ∧ sig.spread > 1 / 2
            ∧ (∃ p ∈ groupFor pairs key,
                p.exchange.name = sig.min_exchange ∧ p.price = sig.min_price)
            ∧ (∃ p ∈ groupFor pairs key,
                p.exchange.name = sig.max_exchange ∧ p.price = sig.max_price))
    ∧ (∀ (pairs : List TradingPair) (key : String),
        (groupFor pairs key).length < 2 → find_price_differences pairs key = none)
    ∧ find_price_differences [sampleWethNetswap, sampleWethTethys] "WETH/USDC" = none
    ∧ find_price_differences [sampleMetisNetswap, sampleMetisTethys] "METIS/USDC"
        = some ⟨"METIS/USDC", 25 / 4, "tethys", 80, "netswap", 85⟩ := by
  refine ⟨?_, ?_, ?_, by decide, by decide⟩
  · intro pairs key
    unfold find_price_differences
    by_cases hlen : (groupFor pairs key).length < 2
    · rw [show signalForGroup key (groupFor pairs key) = none from by
        unfold signalForGroup; rw [if_pos hlen]]
      simp only [Option.isSome_none, Bool.false_eq_true, false_iff]
      rintro ⟨h2, -⟩
      omega
    · obtain ⟨hd, tl, hm⟩ := exists_cons_of_two_le _ hlen
      rw [signalForGroup_cons_eq key _ hd tl hm hlen,
        group_min?_eq _ hd tl hm, group_max?_eq _ hd tl hm]
      by_cases h0 : (minByPrice hd tl).1 > 0
      · by_cases hs : ((maxByPrice hd tl).1 - (minByPrice hd tl).1) / (minByPrice hd tl).1 * 100
            > 1 / 2
        · rw [if_pos h0, if_pos hs]
          simp only [Option.isSome_some, true_iff]
          exact ⟨Nat.not_lt.mp hlen, (minByPrice hd tl).1, rfl,
            (maxByPrice hd tl).1, rfl, h0, hs⟩
        · rw [if_pos h0, if_neg hs]
          simp only [Option.isSome_none, Bool.false_eq_true, false_iff]
          rintro ⟨-, mn, hmn, mx, hmx, -, hsp⟩
          rw [Option.mem_def, Option.some.injEq] at hmn hmx
          subst hmn
          subst hmx
          exact hs hsp
      · rw [if_neg h0]
        simp only [Option.isSome_none, Bool.false_eq_true, false_iff]
        rintro ⟨-, mn, hmn, mx, hmx, hp, -⟩
        rw [Option.mem_def, Option.some.injEq] at hmn
        subst hmn
        exact h0 hp
  · intro pairs key sig hsig
    unfold find_price_differences at hsig
    by_cases hlen : (groupFor pairs key).length < 2
    · rw [show signalForGroup key (groupFor pairs key) = none from by
        unfold signalForGroup; rw [if_pos hlen]] at hsig
      exact absurd hsig (by simp)
    · obtain ⟨hd, tl, hm⟩ := exists_cons_of_two_le _ hlen
      rw [signalForGroup_cons_eq key _ hd tl hm hlen] at hsig
      by_cases h0 : (minByPrice hd tl).1 > 0
      · by_cases hs : ((maxByPrice hd tl).1 - (minByPrice hd tl).1) / (minByPrice hd tl).1 * 100
            > 1 / 2
        · rw [if_pos h0, if_pos hs] at hsig
          cases hsig
          refine ⟨rfl, group_min?_eq _ hd tl hm, group_max?_eq _ hd tl hm, rfl, hs, ?_, ?_⟩
          · have hmem := minByPrice_mem hd tl
            rw [← hm] at hmem
            rcases List.mem_map.mp hmem with ⟨p, hp, hpe⟩
            exact ⟨p, hp, congrArg Prod.snd hpe, congrArg Prod.fst hpe⟩
          · have hmem := maxByPrice_mem hd tl
            rw [← hm] at hmem
            rcases List.mem_map.mp hmem with ⟨p, hp, hpe⟩
            exact ⟨p, hp, congrArg Prod.snd hpe, congrArg Prod.fst hpe⟩
        · rw [if_pos h0, if_neg hs] at hsig
          exact absurd hsig (by simp)
      · rw [if_neg h0] at hsig
        exact absurd hsig (by simp)
  · intro pairs key hlen
    unfold find_price_differences signalForGroup
    rw [if_pos hlen]

unseal Rat.mul Rat.sub Rat.add Rat.inv in
/-- Witness for C1: the signal fields of the METIS/USDC scenario obtained
by applying the specification theorem at that concrete snapshot. -/
theorem find_price_differences_spec_witness :
    (OpportunitySignal.mk "METIS/USDC" (25 / 4) "tethys" 80 "netswap" 85).pair_id = "METIS/USDC"
      ∧ (((groupFor [sampleMetisNetswap, sampleMetisTethys] "METIS/USDC").map
            TradingPair.price).min? = some 80)
      ∧ (((groupFor [sampleMetisNetswap, sampleMetisTethys] "METIS/USDC").map
            TradingPair.price).max? = some 85)
      ∧ (25 / 4 : ℚ) = (85 - 80) / 80 * 100
      ∧ (25 / 4 : ℚ) > 1 / 2
      ∧ (∃ p ∈ groupFor [sampleMetisNetswap, sampleMetisTethys] "METIS/USDC",
          p.exchange.name = "tethys" ∧ p.price = 80)
      ∧ (∃ p ∈ groupFor [sampleMetisNetswap, sampleMetisTethys] "METIS/USDC",
          p.exchange.name = "netswap" ∧ p.price = 85) := by
  have h := find_price_differences_spec.2.1 [sampleMetisNetswap, sampleMetisTethys]
    "METIS/USDC" ⟨"METIS/USDC", 25 / 4, "tethys", 80, "netswap", 85⟩
    find_price_differences_spec.2.2.2.2
  exact ⟨h.1, h.2.1, h.2.2.1, h.2.2.2.1, h.2.2.2.2.1, h.2.2.2.2.2.1, h.2.2.2.2.2.2⟩

/-- C8: `CachedPrice::is_stale(max_age)` is true iff the entry's age
(`now` minus its timestamp) strictly exceeds `max_age`; an entry exactly
`max_age` old is not stale; an entry 120 s old is stale under max-age 60
and not stale under max-age 180. -/
theorem is_stale_strict_age_spec :
    (∀ (c : CachedPrice) (max_age now : ℤ),
        c.is_stale max_age now = true ↔ now - c.timestamp > max_age)
    ∧ (∀ (c : CachedPrice) (now : ℤ), c.is_stale (now - c.timestamp) now = false)
    ∧ (∀ (p : ℚ) (now : ℤ) (src : String),
        (CachedPrice.mk p (now - 120) src).is_stale 60 now = true
          ∧ (CachedPrice.mk p (now - 120) src).is_stale 180 now = false) := by
  refine ⟨fun c m now => ?_, fun c now => ?_, fun p now src => ⟨?_, ?_⟩⟩
  · simp [CachedPrice.is_stale]
  · simp [CachedPrice.is_stale]
  · simp only [CachedPrice.is_stale, decide_eq_true_eq]
    omega
  · simp only [CachedPrice.is_stale, decide_eq_false_iff_not]
    omega

/-- C6: `get_price(base, quote)` returns `some v` iff the cache holds an
entry under key `"{base}/{quote}"` that is not stale under the fixed
60-second window and `v` is its price; otherwise it returns `none` (the
state is read-only on this path, which the embedding makes explicit by
giving `get_price` no state output). -/
theorem get_price_cache_spec :
    ∀ (s : FeedState) (now : ℤ) (base quote : String) (v : ℚ),
      get_price s now base quote = some v ↔
        ∃ c : CachedPrice,
          s.cache.lookup (base ++ "/" ++ quote) = some c
            ∧ c.is_stale 60 now = false ∧ v = c.price := by
  intro s now base quote v
  constructor
  · intro hv
    simp only [get_price] at hv
    cases hlk : List.lookup (base ++ "/" ++ quote) s.cache with
    | none => rw [hlk] at hv; exact absurd hv (by simp)
    | some c =>
      rw [hlk] at hv
      cases hst : c.is_stale 60 now with
      | false =>
        simp [hst] at hv
        exact ⟨c, rfl, hst, hv.symm⟩
      | true => simp [hst] at hv
  · rintro ⟨c, hc, hst, rfl⟩
    simp only [get_price]
    rw [hc]
    simp [hst]

/-- C7: `get_liquidity(base, quote)` looks up key `"{base}/{quote}-liq"`
and returns the cached value whenever the entry exists, with no staleness
check at any age (asymmetric with `get_price`, which refuses entries
older than 60 s). -/
theorem get_liquidity_no_staleness_check :
    (∀ (s : FeedState) (base quote : String) (c : CachedPrice),
        s.cache.lookup (base ++ "/" ++ quote ++ "-liq") = some c →
          get_liquidity s base quote = some c.price)
    ∧ (∀ (s : FeedState) (base quote : String),
        s.cache.lookup (base ++ "/" ++ quote ++ "-liq") = none →
          get_liquidity s base quote = none)
    ∧ (∀ (pv lv : ℚ) (ts now : ℤ) (src : String),
        get_liquidity ⟨[("A/B", ⟨pv, ts, src⟩), ("A/B-liq", ⟨lv, ts, src⟩)], []⟩ "A" "B"
            = some lv
          ∧ (now - ts > 60 →
              get_price ⟨[("A/B", ⟨pv, ts, src⟩), ("A/B-liq", ⟨lv, ts, src⟩)], []⟩ now "A" "B"
                = none)) := by
  refine ⟨fun s base quote c h => ?_, fun s base quote h => ?_,
    fun pv lv ts now src => ⟨?_, fun h => ?_⟩⟩
  · simp only [get_liquidity]
    rw [h]
    rfl
  · simp only [get_liquidity]
    rw [h]
    rfl
  · rfl
  · have hl : List.lookup ("A" ++ "/" ++ "B")
        [("A/B", CachedPrice.mk pv ts src), ("A/B-liq", CachedPrice.mk lv ts src)]
        = some (CachedPrice.mk pv ts src) := rfl
    simp only [get_price]
    rw [hl]
    simp [CachedPrice.is_stale, h]

/-- C3: when the `fetch_metis_pairs().await?` call inside refresh fails,
the `?` operator returns the error before either lock is taken, so both
the per-pair cache and the pair-list cache are exactly as before the call
and a subsequent `get_trading_pairs` serves the pre-failure snapshot. -/
theorem refresh_fetch_error_preserves_caches :
    ∀ (e : String) (now : ℤ) (s : FeedState) (world : String → FetchOutcome),
      refreshRun (.error e) now s = (s, .error e)
        ∧ (s.pairs_cache ≠ [] →
            (get_trading_pairs world (refreshRun (.error e) now s).1).1 = s.pairs_cache) := by
  intro e now s world
  refine ⟨rfl, fun h => ?_⟩
  have he : s.pairs_cache.isEmpty = false := by
    simpa [List.isEmpty_iff] using h
  simp [refreshRun, get_trading_pairs, he]

/-- Witness for C7: a present `-liq` entry is returned, and an entry 100 s
old is still served by get_liquidity while get_price refuses it. -/
theorem get_liquidity_no_staleness_check_witness :
    get_liquidity ⟨[("A/B-liq", ⟨5, 0, "t"⟩)], []⟩ "A" "B" = some 5
      ∧ get_price ⟨[("A/B", ⟨7, 0, "t"⟩), ("A/B-liq", ⟨5, 0, "t"⟩)], []⟩ 100 "A" "B" = none := by
  constructor
  · exact get_liquidity_no_staleness_check.1 ⟨[("A/B-liq", ⟨5, 0, "t"⟩)], []⟩ "A" "B"
      ⟨5, 0, "t"⟩ rfl
  · exact (get_liquidity_no_staleness_check.2.2 7 5 0 100 "t").2 (by decide)

/-- C2: refresh only reports `Err` when the underlying fetch raises — and
the embedded `fetch_metis_pairs` never does (its body ends in
`Ok(all_pairs)`), so refresh returns `Ok(())` for every network outcome;
when every search term fails, the fetch returns `Ok` with the empty list
(not an error) and refresh replaces the pair-list cache with that empty
list (the per-pair cache, updated by iterating the empty list, is
untouched). -/
theorem refresh_reports_ok_spec :
    ∀ (world : String → FetchOutcome) (now : ℤ) (s : FeedState),
      (refresh world now s).2 = .ok ()
        ∧ ((∀ t ∈ search_terms, (world t).isFailure = true) →
            fetch_metis_pairs world = .ok []
              ∧ (refresh world now s).1.pairs_cache = []
              ∧ (refresh world now s).1.cache = s.cache) := by
  intro world now s
  constructor
  · rfl
  · intro hfail
    have hterm : ∀ (acc : List TradingPair) (t : String), t ∈ search_terms →
        processTerm world acc t = acc := by
      intro acc t ht
      have hf := hfail t ht
      cases hw : world t with
      | ok recs =>
        rw [hw] at hf
        exact absurd hf (by simp [FetchOutcome.isFailure])
      | transportError m => simp [processTerm, hw]
      | badStatus c => simp [processTerm, hw]
      | parseError m => simp [processTerm, hw]
    have hfetch : fetch_metis_pairs world = .ok [] := by
      unfold fetch_metis_pairs
      rw [show search_terms.foldl (processTerm world) [] = [] from ?_]
      · simp only [search_terms, List.foldl_cons, List.foldl_nil]
        rw [hterm [] "metis" (by simp [search_terms]),
          hterm [] "netswap" (by simp [search_terms]),
          hterm [] "tethys" (by simp [search_terms])]
    refine ⟨hfetch, ?_, ?_⟩
    · unfold refresh
      rw [hfetch]
      rfl
    · unfold refresh
      rw [hfetch]
      rfl

/-- Witness for C2 in a network where every term fails at the transport,
starting from a state with a non-trivial cache. -/
theorem refresh_reports_ok_spec_witness :
    (refresh demoDownWorld 5 ⟨[("A/B", ⟨1, 0, "t"⟩)], [sampleWethNetswap]⟩).2 = .ok ()
      ∧ fetch_metis_pairs demoDownWorld = .ok []
      ∧ (refresh demoDownWorld 5 ⟨[("A/B", ⟨1, 0, "t"⟩)], [sampleWethNetswap]⟩).1.pairs_cache = []
      ∧ (refresh demoDownWorld 5 ⟨[("A/B", ⟨1, 0, "t"⟩)], [sampleWethNetswap]⟩).1.cache
          = [("A/B", ⟨1, 0, "t"⟩)] := by
  have h := refresh_reports_ok_spec demoDownWorld 5 ⟨[("A/B", ⟨1, 0, "t"⟩)], [sampleWethNetswap]⟩
  have h2 := h.2 (by intro t ht; rfl)
  exact ⟨h.1, h2.1, h2.2.1, h2.2.2⟩

/-- C5: within one fetch cycle the snapshot holds at most one pair per
`full_id()` identity, namely the first converted record with that
identity encountered across all search terms (first-seen wins). -/
theorem fetch_dedup_first_seen_wins :
    ∀ (world : String → FetchOutcome) (pairs : List TradingPair) (k : String),
      fetch_metis_pairs world = .ok pairs →
        pairs.filter (fun p => p.full_id == k)
            = ((candidateStream world).filter (fun p => p.full_id == k)).take 1
          ∧ (pairs.filter (fun p => p.full_id == k)).length ≤ 1 := by
  intro world pairs k h
  rw [fetch_eq] at h
  cases h
  constructor
  · exact foldl_pushUnique_filter_fresh _ [] k rfl
  · rw [foldl_pushUnique_filter_fresh _ [] k rfl]
    exact List.length_take_le 1 _

/-- Witness for C5: two records with the same `full_id()` in one term's
response collapse to the first one (price 85), and the candidate stream
shows both. -/
theorem fetch_dedup_first_seen_wins_witness :
    [demoPair85].filter (fun p => p.full_id == "netswap:METIS/USDC")
        = ((candidateStream demoWorld).filter
            (fun p => p.full_id == "netswap:METIS/USDC")).take 1
      ∧ ([demoPair85].filter (fun p => p.full_id == "netswap:METIS/USDC")).length ≤ 1 :=
  fetch_dedup_first_seen_wins demoWorld [demoPair85] "netswap:METIS/USDC" rfl

/-- C9: every pair in a fetched snapshot comes from a record whose chain
identifier was exactly "metis", has its exchange in the allow-list
{netswap, tethys}, a strictly positive price, and USD liquidity at least
the 1000-dollar floor. -/
theorem fetch_snapshot_invariant :
    ∀ (world : String → FetchOutcome) (pairs : List TradingPair) (p : TradingPair),
      fetch_metis_pairs world = .ok pairs → p ∈ pairs →
        (p.exchange.name = "netswap" ∨ p.exchange.name = "tethys")
          ∧ 0 < p.price ∧ 1000 ≤ p.liquidity
          ∧ ∃ t ∈ search_terms, ∃ records, world t = .ok records
              ∧ ∃ r ∈ records, r.chain_id = "metis" ∧ convert_to_trading_pair r = .ok p := by
  intro world pairs p h hp
  rw [fetch_eq] at h
  cases h
  rcases mem_foldl_pushUnique _ [] hp with h0 | h0
  · exact absurd h0 (by simp)
  · rcases List.mem_flatMap.mp h0 with ⟨t, ht, hpt⟩
    revert hpt
    unfold candidatesOfTerm
    cases hw : world t with
    | transportError m => intro hpt; exact absurd hpt (by simp)
    | badStatus c => intro hpt; exact absurd hpt (by simp)
    | parseError m => intro hpt; exact absurd hpt (by simp)
    | ok records =>
      intro hpt
      rcases List.mem_flatMap.mp hpt with ⟨r, hr, hpr⟩
      revert hpr
      unfold candidatesOfRecord
      cases hg : r.chain_id == "metis" && (r.dex_id == "netswap" || r.dex_id == "tethys") with
      | false => intro hpr; exact absurd hpr (by simp)
      | true =>
        intro hpr
        rcases Bool.and_eq_true_iff.mp hg with ⟨hchain, hdex⟩
        cases hcv : convert_to_trading_pair r with
        | error e => rw [hcv] at hpr; exact absurd hpr (by simp)
        | ok q =>
          rw [hcv] at hpr
          simp at hpr
          subst hpr
          rcases convert_ok_props r p hcv with ⟨hex, _, hprice, hliq⟩
          refine ⟨?_, hprice, hliq, t, ht, records, hw, r, hr, eq_of_beq hchain, hcv⟩
          rcases Bool.or_eq_true_iff.mp hdex with hd | hd
          · exact Or.inl (hex.trans (eq_of_beq hd))
          · exact Or.inr (hex.trans (eq_of_beq hd))

/-- Witness for C9 at the concrete demo network and its fetched pair. -/
theorem fetch_snapshot_invariant_witness :
    ((demoPair85.exchange.name = "netswap" ∨ demoPair85.exchange.name = "tethys")
      ∧ 0 < demoPair85.price ∧ 1000 ≤ demoPair85.liquidity
      ∧ ∃ t ∈ search_terms, ∃ records, demoWorld t = .ok records
          ∧ ∃ r ∈ records, r.chain_id = "metis"
              ∧ convert_to_trading_pair r = .ok demoPair85) :=
  fetch_snapshot_invariant demoWorld [demoPair85] demoPair85 rfl (by simp)

/-- C4: conversion succeeds iff a price field is present (preferring
priceUsd, falling back to priceNative), the chosen string parses to a
strictly positive decimal (a parse failure counts as zero and is
rejected), and the USD liquidity (zero when the nested field is missing)
is at least 1000; the reserves are taken from the nested base/quote
fields with zero defaults and never cause rejection. -/
theorem convert_to_trading_pair_spec :
    ∀ d : DexScreenerPair,
      ((convert_to_trading_pair d).isOk = true ↔
        ∃ s, d.price_usd.orElse (fun _ => d.price_native) = some s
          ∧ 0 < (decimalFromStr s).getD 0
          ∧ 1000 ≤ (d.liquidity.bind (fun l => l.usd)).getD 0)
      ∧ (∀ p, convert_to_trading_pair d = .ok p →
          p.price = (decimalFromStr ((d.price_usd.orElse
              (fun _ => d.price_native)).getD "")).getD 0
            ∧ p.liquidity = (d.liquidity.bind (fun l => l.usd)).getD 0
            ∧ p.reserve_base = (d.liquidity.bind (fun l => l.base)).getD 0
            ∧ p.reserve_quote = (d.liquidity.bind (fun l => l.quote)).getD 0) := by
  intro d
  constructor
  · cases hpu : d.price_usd.orElse (fun _ => d.price_native) with
    | none =>
      have heq : convert_to_trading_pair d = .error "No price data" := by
        unfold convert_to_trading_pair
        rw [hpu]
      rw [heq]
      constructor
      · intro hfalse
        simp [Except.isOk, Except.toBool] at hfalse
      · rintro ⟨s, hs, -⟩
        exact absurd hs (by simp)
    | some s =>
      have heq : convert_to_trading_pair d =
          if (decimalFromStr s).getD 0 ≤ 0 then .error "Invalid price"
          else if (d.liquidity.bind (fun l => l.usd)).getD 0 < 1000 then
            .error "Liquidity too low"
          else
            .ok ⟨⟨d.base_token.symbol, d.base_token.name, 18, d.base_token.address⟩,
              ⟨d.quote_token.symbol, d.quote_token.name, 18, d.quote_token.address⟩,
              ⟨d.dex_id, "Metis", d.pair_address⟩,
              (decimalFromStr s).getD 0,
              (d.liquidity.bind (fun l => l.usd)).getD 0,
              (d.liquidity.bind (fun l => l.base)).getD 0,
              (d.liquidity.bind (fun l => l.quote)).getD 0⟩ := by
        unfold convert_to_trading_pair
        rw [hpu]
      rw [heq]
      by_cases hp : (decimalFromStr s).getD 0 ≤ 0
      · rw [if_pos hp]
        constructor
        · intro hfalse
          simp [Except.isOk, Except.toBool] at hfalse
        · rintro ⟨s', hs', h0, -⟩
          rw [Option.some.injEq] at hs'
          subst hs'
          exact absurd h0 (not_lt.mpr hp)
      · rw [if_neg hp]
        by_cases hl : (d.liquidity.bind (fun l => l.usd)).getD 0 < 1000
        · rw [if_pos hl]
          constructor
          · intro hfalse
            simp [Except.isOk, Except.toBool] at hfalse
          · rintro ⟨s', hs', -, hliq⟩
            exact absurd hliq (not_le.mpr hl)
        · rw [if_neg hl]
          constructor
          · intro _
            exact ⟨s, rfl, lt_of_not_le hp, not_lt.mp hl⟩
          · intro _
            rfl
  · intro p hp
    unfold convert_to_trading_pair at hp
    split at hp
    · exact absurd hp (by simp)
    · next s hpu =>
      split at hp
      · exact absurd hp (by simp)
      · split at hp
        · exact absurd hp (by simp)
        · cases hp
          rw [hpu]
          exact ⟨rfl, rfl, rfl, rfl⟩

/-- Witness for C4: the METIS/USDC record with priceUsd "85" and USD
liquidity 200000 converts, and the converted pair carries the defaulted
reserves. -/
theorem convert_to_trading_pair_spec_witness :
    (convert_to_trading_pair demoRecord85).isOk = true
      ∧ (demoPair85.price = (decimalFromStr ((demoRecord85.price_usd.orElse
            (fun _ => demoRecord85.price_native)).getD "")).getD 0
          ∧ demoPair85.liquidity = (demoRecord85.liquidity.bind (fun l => l.usd)).getD 0
          ∧ demoPair85.reserve_base = (demoRecord85.liquidity.bind (fun l => l.base)).getD 0
          ∧ demoPair85.reserve_quote
              = (demoRecord85.liquidity.bind (fun l => l.quote)).getD 0) := by
  have h := convert_to_trading_pair_spec demoRecord85
  exact ⟨(h.1).mpr ⟨"85", rfl, by decide, by decide⟩, h.2 demoPair85 rfl⟩

/-- One cache write of the refresh loop: the liquidity entry shadows the
price entry, both shadow the previous cache. -/
lemma lookup_cachePair (now : ℤ) (m : List (String × CachedPrice)) (p : TradingPair)
    (k : String) :
    List.lookup k (cachePair now m p)
      = if k = p.pair_id ++ "-liq" then some ⟨p.liquidity, now, pairSrc p⟩
        else if k = p.pair_id then some ⟨p.price, now, pairSrc p⟩
        else List.lookup k m := by
  unfold cachePair cacheInsert
  by_cases h1 : k = p.pair_id ++ "-liq"
  · subst h1
    simp [List.lookup_cons, beq_iff_eq]
  · by_cases h2 : k = p.pair_id
    · subst h2
      have hb : (p.pair_id == p.pair_id ++ "-liq") = false := beq_eq_false_iff_ne.mpr h1
      simp [List.lookup_cons, hb, h1]
    · have hb1 : (k == p.pair_id ++ "-liq") = false := beq_eq_false_iff_ne.mpr h1
      have hb2 : (k == p.pair_id) = false := beq_eq_false_iff_ne.mpr h2
      simp [List.lookup_cons, hb1, hb2, h1, h2]

/-- Cache lookup after the refresh write loop: the last snapshot pair
whose price key or liquidity key equals `k` wins; keys written by no pair
fall through to the previous cache. -/
lemma lookup_foldl_cachePair (now : ℤ) (pairs : List TradingPair)
    (c0 : List (String × CachedPrice)) (k : String) :
    List.lookup k (pairs.foldl (cachePair now) c0)
      = match (pairs.filter (fun p =>
            (p.pair_id ++ "-liq" == k) || (p.pair_id == k))).getLast? with
        | some p => if p.pair_id ++ "-liq" == k
            then some ⟨p.liquidity, now, pairSrc p⟩
            else some ⟨p.price, now, pairSrc p⟩
        | none => List.lookup k c0 := by
  induction pairs using List.reverseRecOn with
  | nil => rfl
  | append_singleton ps p ih =>
    rw [List.foldl_append, List.foldl_cons, List.foldl_nil, lookup_cachePair,
      List.filter_append]
    by_cases h1 : k = p.pair_id ++ "-liq"
    · rw [if_pos h1]
      have hpred : ((p.pair_id ++ "-liq" == k) || (p.pair_id == k)) = true := by
        simp [beq_iff_eq, h1]
      simp [List.filter_cons, hpred, List.getLast?_concat, beq_iff_eq, h1]
    · by_cases h2 : k = p.pair_id
      · rw [if_neg h1, if_pos h2]
        have hpred : ((p.pair_id ++ "-liq" == k) || (p.pair_id == k)) = true := by
          simp [beq_iff_eq, h2]
        have hliqne : ¬(p.pair_id ++ "-liq" = k) := fun h => h1 h.symm
        simp [List.filter_cons, hpred, List.getLast?_concat, beq_iff_eq, hliqne]
      · rw [if_neg h1, if_neg h2]
        have hpred : ((p.pair_id ++ "-liq" == k) || (p.pair_id == k)) = false := by
          simp only [Bool.or_eq_false_iff]
          constructor
          · simp [beq_iff_eq]
            exact fun h => h1 h.symm
          · simp [beq_iff_eq]
            exact fun h => h2 h.symm
        rw [ih]
        simp [List.filter_cons, hpred]

/-- C10: the per-pair cache written by refresh is keyed by token symbols
only, so among snapshot pairs with the same base/quote symbols each later
pair overwrites the earlier one's entries, and after a refresh at time
`now`, `get_price`/`get_liquidity` return the price and liquidity of the
last such pair in snapshot order (the other exchanges' values are not
retrievable).  The two side conditions exclude degenerate token symbols
whose concatenated keys collide with a `-liq` key. -/
theorem refresh_symbol_keyed_overwrite :
    ∀ (pairs : List TradingPair) (now : ℤ) (s : FeedState) (base quote : String)
      (plast : TradingPair),
      (pairs.filter (fun p => p.pair_id == base ++ "/" ++ quote)).getLast? = some plast →
      (∀ p ∈ pairs, p.pair_id ++ "-liq" ≠ base ++ "/" ++ quote) →
      (∀ p ∈ pairs, p.pair_id ≠ base ++ "/" ++ quote ++ "-liq") →
        get_price (refreshApply pairs now s) now base quote = some plast.price
          ∧ get_liquidity (refreshApply pairs now s) base quote = some plast.liquidity := by
  intro pairs now s base quote plast hlast hclean1 hclean2
  have hplastmem : plast ∈ pairs ∧ (plast.pair_id == base ++ "/" ++ quote) = true :=
    List.mem_filter.mp (List.mem_of_mem_getLast? hlast)
  have hpk : plast.pair_id = base ++ "/" ++ quote := eq_of_beq hplastmem.2
  have hkey : List.lookup (base ++ "/" ++ quote) ((refreshApply pairs now s).cache)
      = some ⟨plast.price, now, pairSrc plast⟩ := by
    show List.lookup _ (pairs.foldl (cachePair now) s.cache) = _
    rw [lookup_foldl_cachePair]
    have hcongr : pairs.filter (fun p => (p.pair_id ++ "-liq" == base ++ "/" ++ quote)
          || (p.pair_id == base ++ "/" ++ quote))
        = pairs.filter (fun p => p.pair_id == base ++ "/" ++ quote) := by
      apply List.filter_congr
      intro x hx
      have h1 := hclean1 x hx
      simp [beq_iff_eq, h1]
    rw [hcongr, hlast]
    have h1 := hclean1 plast hplastmem.1
    simp [beq_iff_eq, h1]
  have hkey2 : List.lookup (base ++ "/" ++ quote ++ "-liq") ((refreshApply pairs now s).cache)
      = some ⟨plast.liquidity, now, pairSrc plast⟩ := by
    show List.lookup _ (pairs.foldl (cachePair now) s.cache) = _
    rw [lookup_foldl_cachePair]
    have hcongr : pairs.filter (fun p =>
          (p.pair_id ++ "-liq" == base ++ "/" ++ quote ++ "-liq")
            || (p.pair_id == base ++ "/" ++ quote ++ "-liq"))
        = pairs.filter (fun p => p.pair_id == base ++ "/" ++ quote) := by
      apply List.filter_congr
      intro x hx
      have h2 := hclean2 x hx
      have hiff : (x.pair_id ++ "-liq" = base ++ "/" ++ quote ++ "-liq")
          ↔ (x.pair_id = base ++ "/" ++ quote) := by
        constructor
        · intro h
          exact strAppendCancelRight _ _ "-liq" h
        · intro h
          rw [h]
      rw [Bool.eq_iff_iff]
      simp only [Bool.or_eq_true, beq_iff_eq, hiff]
      constructor
      · rintro (h | h)
        · exact h
        · exact absurd h h2
      · exact fun h => Or.inl h
    rw [hcongr, hlast]
    have hb : (plast.pair_id ++ "-liq" == base ++ "/" ++ quote ++ "-liq") = true := by
      rw [hpk]
      exact beq_self_eq_true _
    simp [hb]
  constructor
  · simp only [get_price]
    rw [hkey]
    simp [CachedPrice.is_stale]
  · simp only [get_liquidity]
    rw [hkey2]
    rfl

/-- Witness for C10: two WETH/USDC listings on different exchanges; after
refresh the tethys listing (last in the snapshot) is the one served. -/
theorem refresh_symbol_keyed_overwrite_witness :
    get_price (refreshApply [sampleWethNetswap, sampleWethTethys] 0 ⟨[], []⟩) 0 "WETH" "USDC"
        = some sampleWethTethys.price
      ∧ get_liquidity (refreshApply [sampleWethNetswap, sampleWethTethys] 0 ⟨[], []⟩)
          "WETH" "USDC" = some sampleWethTethys.liquidity :=
  refresh_symbol_keyed_overwrite [sampleWethNetswap, sampleWethTethys] 0 ⟨[], []⟩
    "WETH" "USDC" sampleWethTethys (by decide) (by decide) (by decide)

/-- Witness for C3 at a concrete pre-failure state. -/
theorem refresh_fetch_error_preserves_caches_witness :
    refreshRun (.error "connect failure") 0 ⟨[], [sampleWethNetswap]⟩
        = (⟨[], [sampleWethNetswap]⟩, .error "connect failure")
      ∧ (get_trading_pairs (fun _ => .transportError "down")
          (refreshRun (.error "connect failure") 0 ⟨[], [sampleWethNetswap]⟩).1).1
        = [sampleWethNetswap] := by
  have h := refresh_fetch_error_preserves_caches "connect failure" 0
    ⟨[], [sampleWethNetswap]⟩ (fun _ => .transportError "down")
  exact ⟨h.1, h.2 (by simp)⟩

end Furucombo
